import Mathlib

/-!
# Verification of the LP-IRL core (`lp_irl.py`)

A shallow embedding, over `ℚ`, of the linear-programming inverse reinforcement
learning pipeline `lp_irl(S, A, T, gamma, pi, l1, Rmax)`:

* the ordered state set `S` (n distinct identifiers) and action set `A`
  (k distinct identifiers) are represented by their positions `Fin n` / `Fin k`;
  the helper lambdas `si`/`ai` in the source are index lookups into these
  ordered sets, so distinct identifiers are in bijection with their indices.
* the flat `(n·k) × n` transition matrix `T` is a function `ℕ → Fin n → ℚ`;
  the helper `trans s a s'` reads row `s*k + a`, exactly as the source does.
* numpy matrices that grow by `vstack`/`hstack` are `List (List ℚ)` (rows of
  rationals); `np.vstack` is list append and `np.hstack` appends to each row.
  `shape1` mirrors `A_ub.shape[1]` for a nonempty row list.
* `c = np.empty(shape=[1, n])` allocates *uninitialised* memory; the unknown
  initial contents are an explicit parameter `g` of the assembly.
* `np.linalg.inv` is `invMat` (inverse via determinant and adjugate, the
  classical adjugate formula, computable over `ℚ`).
* the scipy `linprog` result is abstracted as its status code and solution
  vector; the source reads only `res['x']`.

Floating point is modelled by exact rational arithmetic.
-/

open Matrix

namespace LPIRL

/-- Inputs of `lp_irl`: flat transition matrix (row `s*k + a` holds the
distribution of `P(· | s_s, a_a)`), deterministic policy `pi` (as the dict
`{state: action}` of the source, reduced to indices), discount `gamma`,
regularisation weight `l1` and reward bound `Rmax`. -/
structure IRLInput (n k : ℕ) where
  T : ℕ → Fin n → ℚ
  pi : Fin n → Fin k
  gamma : ℚ
  l1 : ℚ
  Rmax : ℚ

variable {n k : ℕ}

/-- Source: `trans = lambda s1, a, s2: T[si(s1) * k + ai(a), si(s2)]`. -/
def trans (I : IRLInput n k) (s : Fin n) (a : Fin k) (s' : Fin n) : ℚ :=
  I.T (s.val * k + a.val) s'

/-- Source: `trans_mat(pi)`: the n×n transition matrix induced by the policy lambda. -/
def trans_mat (I : IRLInput n k) (p : Fin n → Fin k) : Matrix (Fin n) (Fin n) ℚ :=
  Matrix.of fun i i' => trans I i (p i) i'

/-- Source: `Tpi = trans_mat(lambda s: pi[s])`. -/
def Tpi (I : IRLInput n k) : Matrix (Fin n) (Fin n) ℚ :=
  trans_mat I I.pi

/-- Source: `Atmp = A.tolist(); Atmp.remove(pi[from_state])`: the ordered list of
non-policy actions at a state (`remove` deletes the first occurrence, and the
action identifiers are distinct). -/
def npActions (I : IRLInput n k) (s : Fin n) : List (Fin k) :=
  (List.finRange k).erase (I.pi s)

theorem npActions_length (I : IRLInput n k) (s : Fin n) :
    (npActions I s).length = k - 1 := by
  rw [npActions, List.length_erase_of_mem (List.mem_finRange _), List.length_finRange]

/-- Source: `Tnotpi[idx]`: transition matrix when, at every state, the `idx`-th
non-policy action (`Atmp[idx]`) is taken instead of the policy action. -/
def Tnotpi (I : IRLInput n k) (idx : Fin (k - 1)) : Matrix (Fin n) (Fin n) ℚ :=
  Matrix.of fun i i' =>
    trans I i ((npActions I i).get (Fin.cast (npActions_length I i).symm idx)) i'

/-- Computable matrix inverse by the adjugate formula; agrees with
`np.linalg.inv` on nonsingular matrices. -/
def invMat (M : Matrix (Fin n) (Fin n) ℚ) : Matrix (Fin n) (Fin n) ℚ :=
  (M.det)⁻¹ • M.adjugate

/-- Source: `T_disc_inv = np.linalg.inv(np.identity(n) - gamma * Tpi)`. -/
def T_disc_inv (I : IRLInput n k) : Matrix (Fin n) (Fin n) ℚ :=
  invMat (1 - I.gamma • Tpi I)

/-- Source: `constraint_rows = -1 * (Tpi - Tnotpi[i]) @ T_disc_inv` — the matrix whose
rows are appended by the optimal-policy and costly-single-step stages; the
discounted-transition factor `D` is passed in (the source computes it once). -/
def opBlock (I : IRLInput n k) (D : Matrix (Fin n) (Fin n) ℚ) (idx : Fin (k - 1)) :
    Matrix (Fin n) (Fin n) ℚ :=
  -((Tpi I - Tnotpi I idx) * D)

/-- Row `i` of an n×n matrix, as a list (numpy row extraction). -/
def rowOf (M : Matrix (Fin n) (Fin n) ℚ) (i : Fin n) : List ℚ :=
  (List.finRange n).map (fun j => M i j)

/-- All n rows of an n×n matrix, as a list of lists. -/
def matRows (M : Matrix (Fin n) (Fin n) ℚ) : List (List ℚ) :=
  (List.finRange n).map (rowOf M)

/-- Row `i` of `np.identity(n)`. -/
def idRow (n : ℕ) (i : Fin n) : List ℚ :=
  (List.finRange n).map (fun j => if i = j then 1 else 0)

/-- The value `A_ub.shape[1]` of a row list with at least one row. -/
def shape1 (A : List (List ℚ)) : ℕ := (A.headD []).length

/-- The `(c, A_ub, b_ub)` triple threaded through the four assembly stages. -/
abbrev LPTriple := List ℚ × List (List ℚ) × List ℚ

/-- Stage 1, `add_optimal_policy_constraints`: for each `i in range(k-1)`,
vstack `-1 * (Tpi - Tnotpi[i]) @ T_disc_inv` onto `A_ub` and matching zeros
onto `b_ub`. -/
def add_optimal_policy_constraints (I : IRLInput n k) (D : Matrix (Fin n) (Fin n) ℚ)
    (cab : LPTriple) : LPTriple :=
  (List.finRange (k - 1)).foldl
    (fun acc idx =>
      let rows := matRows (opBlock I D idx)
      (acc.1, acc.2.1 ++ rows, acc.2.2 ++ List.replicate rows.length 0))
    cab

/-- Stage 2, `add_costly_single_step_constraints`: append n `-1` objective
coefficients, pad `A_ub` with n zero columns, then for each `i in range(k-1)`
vstack `[-1*(Tpi-Tnotpi[i])@T_disc_inv | padding | identity]` with zero
bounds. -/
def add_costly_single_step_constraints (I : IRLInput n k) (D : Matrix (Fin n) (Fin n) ℚ)
    (cab : LPTriple) : LPTriple :=
  let c := cab.1 ++ List.replicate n (-1)
  let cssOffset := c.length - n
  let A0 := cab.2.1.map (fun r => r ++ List.replicate n 0)
  (List.finRange (k - 1)).foldl
    (fun acc idx =>
      let rows := (List.finRange n).map
        (fun s => rowOf (opBlock I D idx) s ++ List.replicate (cssOffset - n) 0 ++ idRow n s)
      (acc.1, acc.2.1 ++ rows, acc.2.2 ++ List.replicate rows.length 0))
    (c, A0, cab.2.2)

/-- Stage 3, `add_rmax_constraints`: for each `i in range(n)`, a row with a
single `1` in column `i` and bound `Rmax`. -/
def add_rmax_constraints (n : ℕ) (Rmax : ℚ) (cab : LPTriple) : LPTriple :=
  (List.range n).foldl
    (fun acc i =>
      (acc.1, acc.2.1 ++ [(List.replicate (shape1 acc.2.1) 0).set i 1], acc.2.2 ++ [Rmax]))
    cab

/-- Stage 4, `add_l1norm_constraints`: append n `+l1` objective coefficients,
pad `A_ub` with n zero columns, then for each `i in range(n)` the two rows
`-R_i ≤ 0` and `R_i - z_i ≤ 0`. -/
def add_l1norm_constraints (n : ℕ) (l1 : ℚ) (cab : LPTriple) : LPTriple :=
  let c := cab.1 ++ List.replicate n l1
  let l1Offset := c.length - n
  let A0 := cab.2.1.map (fun r => r ++ List.replicate n 0)
  (List.range n).foldl
    (fun acc i =>
      let r1 := (List.replicate (shape1 acc.2.1) 0).set i (-1)
      let A1 := acc.2.1 ++ [r1]
      let b1 := acc.2.2 ++ [0]
      let r2 := ((List.replicate (shape1 A1) 0).set i 1).set (l1Offset + i) (-1)
      (acc.1, A1 ++ [r2], b1 ++ [0]))
    (c, A0, cab.2.2)

/-- The composed LP assembly of `lp_irl`, starting from
`c = np.empty([1,n])` (whose unknown initial contents are `g`),
`A_ub = np.empty([0,n])`, `b_ub = np.empty([0,1])`, with the four stages in
source order. -/
def assembleLP (I : IRLInput n k) (D : Matrix (Fin n) (Fin n) ℚ) (g : List ℚ) : LPTriple :=
  add_l1norm_constraints n I.l1
    (add_rmax_constraints n I.Rmax
      (add_costly_single_step_constraints I D
        (add_optimal_policy_constraints I D (g, [], []))))

/-- The LP problem actually solved by `lp_irl`, with
`D = T_disc_inv = np.linalg.inv(I - gamma*Tpi)`. -/
def lp_irl_LP (I : IRLInput n k) (g : List ℚ) : LPTriple :=
  assembleLP I (T_disc_inv I) g

/-- Behaviour of `np.min` on a 1-d array (0 on the empty array, never used there). -/
def npMin : List ℚ → ℚ
  | [] => 0
  | h :: t => t.foldl min h

/-- Behaviour of `np.max` on a 1-d array (0 on the empty array, never used there). -/
def npMax : List ℚ → ℚ
  | [] => 0
  | h :: t => t.foldl max h

/-- Source: `normalize(vals) = (vals - min) / (max - min)`. -/
def normalize (vals : List ℚ) : List ℚ :=
  vals.map (fun v => (v - npMin vals) / (npMax vals - npMin vals))

/-- Source: `rewards = Rmax * normalize(res['x'][0:n])`. -/
def extract_rewards (Rmax : ℚ) (n : ℕ) (x : List ℚ) : List ℚ :=
  (normalize (x.take n)).map (fun v => Rmax * v)

/-- The scipy `linprog` result as read by the source: a status code
(0 = success, 2 = infeasible, 3 = unbounded) and the solution vector; the
source accesses only `res['x']`. -/
structure LinprogResult where
  status : ℕ
  x : List ℚ

/-- The post-solve step of `lp_irl`: `rewards = Rmax * normalize(res['x'][0:n]);
return rewards, res` — applied to the solver result unconditionally, with no
inspection of `res.status`. -/
def lp_irl_post (Rmax : ℚ) (n : ℕ) (res : LinprogResult) : List ℚ × LinprogResult :=
  (extract_rewards Rmax n res.x, res)

/-- Dot product of an LP row with the solution vector (`A_ub[i] · x`). -/
def dot (r x : List ℚ) : ℚ := (List.zipWith (· * ·) r x).sum

/-- Predicate: `x` satisfies every inequality of the system `A_ub · x ≤ b_ub`. -/
def Feasible (A : List (List ℚ)) (b : List ℚ) (x : List ℚ) : Prop :=
  ∀ p ∈ A.zip b, dot p.1 x ≤ p.2

/-- The first n solver variables, as a vector (`x[0:n]`). -/
def xvec (n : ℕ) (x : List ℚ) : Fin n → ℚ := fun i => x.getD i 0

/-- The reward vector returned by `lp_irl`, as a vector over states. -/
def rewardVec (I : IRLInput n k) (x : List ℚ) : Fin n → ℚ :=
  fun i => (extract_rewards I.Rmax n x).getD i 0

/-- The value vector of the Bellman solve `v = (I - gamma*Tpi)^-1 R`. -/
def valueVec (I : IRLInput n k) (R : Fin n → ℚ) : Fin n → ℚ :=
  T_disc_inv I *ᵥ R

/-- Expected discounted value of taking action `a` at state `s` and following
the policy afterwards, under state reward `R`:
`Q(s,a) = R(s) + gamma * Σ_{s'} P(s'|s,a) v(s')`. -/
def Qval (I : IRLInput n k) (R : Fin n → ℚ) (s : Fin n) (a : Fin k) : ℚ :=
  R s + I.gamma * ∑ s', trans I s a s' * valueVec I R s'

/-! ## Helper lemmas: dot products over list rows -/

theorem dot_nil_left (x : List ℚ) : dot [] x = 0 := rfl

theorem dot_cons (a b : ℚ) (r x : List ℚ) : dot (a :: r) (b :: x) = a * b + dot r x := by
  simp [dot]

theorem dot_replicate_zero (m : ℕ) (x : List ℚ) : dot (List.replicate m 0) x = 0 := by
  induction m generalizing x with
  | zero => rfl
  | succ m ih =>
    cases x with
    | nil => simp [dot]
    | cons b x => rw [List.replicate_succ, dot_cons, ih, zero_mul, zero_add]

theorem dot_take (r x : List ℚ) (m : ℕ) (h : r.length ≤ m) : dot r (x.take m) = dot r x := by
  induction r generalizing x m with
  | nil => simp [dot]
  | cons a r ih =>
    cases x with
    | nil => simp [dot]
    | cons b x =>
      cases m with
      | zero => exact absurd h (by simp)
      | succ m =>
        rw [List.take_succ_cons, dot_cons, dot_cons, ih]
        exact Nat.le_of_succ_le_succ h

theorem dot_append (r1 r2 x : List ℚ) (h : r1.length ≤ x.length) :
    dot (r1 ++ r2) x = dot r1 x + dot r2 (x.drop r1.length) := by
  conv_lhs => rw [← List.take_append_drop r1.length x]
  rw [dot, List.zipWith_append _ _ _ _ _ (by rw [List.length_take]; omega),
    List.sum_append, ← dot, ← dot, dot_take _ _ _ le_rfl]

theorem dot_map_finRange (m : ℕ) (f : Fin m → ℚ) (x : List ℚ) (h : m ≤ x.length) :
    dot ((List.finRange m).map f) x = ∑ j, f j * x.getD j 0 := by
  induction m generalizing x with
  | zero => simp [dot]
  | succ m ih =>
    cases x with
    | nil => exact absurd h (by simp)
    | cons b x =>
      rw [List.finRange_succ_eq_map, List.map_cons, List.map_map, dot_cons,
        ih (f ∘ Fin.succ) x (by simpa using h), Fin.sum_univ_succ]
      simp [List.getD_cons_succ, List.getD_cons_zero]

theorem length_rowOf (M : Matrix (Fin n) (Fin n) ℚ) (i : Fin n) : (rowOf M i).length = n := by
  simp [rowOf]

theorem length_idRow (s : Fin n) : (idRow n s).length = n := by
  simp [idRow]

theorem dot_rowOf (M : Matrix (Fin n) (Fin n) ℚ) (i : Fin n) (x : List ℚ) (h : n ≤ x.length) :
    dot (rowOf M i) x = ∑ j, M i j * xvec n x j := by
  rw [rowOf, dot_map_finRange n _ x h]
  rfl

theorem dot_idRow (s : Fin n) (x : List ℚ) (h : n ≤ x.length) :
    dot (idRow n s) x = x.getD s 0 := by
  rw [idRow, dot_map_finRange n _ x h]
  simp [ite_mul]

theorem set_replicate_eq_map (m i : ℕ) (a : ℚ) (hi : i < m) :
    (List.replicate m (0:ℚ)).set i a
      = (List.finRange m).map (fun (j : Fin m) => if (j : ℕ) = i then a else 0) := by
  apply List.ext_get (by simp)
  intro j h1 h2
  rw [List.get_eq_getElem, List.get_eq_getElem, List.getElem_map, List.getElem_finRange,
    List.getElem_set]
  by_cases hji : i = j
  · subst hji
    simp
  · rw [if_neg hji, List.getElem_replicate, if_neg]
    simp only [Fin.coe_cast, Fin.val_mk]
    omega

theorem dot_single (m i : ℕ) (a : ℚ) (x : List ℚ) (hi : i < m) (h : m ≤ x.length) :
    dot ((List.replicate m 0).set i a) x = a * x.getD i 0 := by
  rw [set_replicate_eq_map m i a hi, dot_map_finRange m _ x h,
    Finset.sum_eq_single (⟨i, hi⟩ : Fin m)]
  · simp
  · intro j _ hj
    rw [if_neg, zero_mul]
    intro hji
    exact hj (Fin.ext hji)
  · intro hmem
    exact absurd (Finset.mem_univ _) hmem

/-! ## Helper lemmas: `np.min` / `np.max` -/

theorem foldl_min_le_init (h : ℚ) (t : List ℚ) : t.foldl min h ≤ h := by
  induction t generalizing h with
  | nil => exact le_rfl
  | cons a t ih => exact le_trans (ih (min h a)) (min_le_left h a)

theorem foldl_min_mem (h : ℚ) (t : List ℚ) : t.foldl min h ∈ h :: t := by
  induction t generalizing h with
  | nil => simp
  | cons a t ih =>
    rcases List.mem_cons.mp (ih (min h a)) with hc | hc
    · rcases min_choice h a with hm | hm
      · exact List.mem_cons.mpr (Or.inl (hc.trans hm))
      · exact List.mem_cons.mpr (Or.inr (List.mem_cons.mpr (Or.inl (hc.trans hm))))
    · exact List.mem_cons.mpr (Or.inr (List.mem_cons.mpr (Or.inr hc)))

theorem foldl_min_le (h : ℚ) (t : List ℚ) (y : ℚ) (hy : y ∈ t) : t.foldl min h ≤ y := by
  induction t generalizing h with
  | nil => exact absurd hy (by simp)
  | cons a t ih =>
    rcases List.mem_cons.mp hy with rfl | hy
    · exact le_trans (foldl_min_le_init (min h y) t) (min_le_right h y)
    · exact ih (min h a) hy

theorem npMin_mem (l : List ℚ) (hl : l ≠ []) : npMin l ∈ l := by
  cases l with
  | nil => exact absurd rfl hl
  | cons h t => exact foldl_min_mem h t

theorem npMin_le (l : List ℚ) (y : ℚ) (hy : y ∈ l) : npMin l ≤ y := by
  cases l with
  | nil => exact absurd hy (by simp)
  | cons h t =>
    rcases List.mem_cons.mp hy with rfl | hy
    · exact foldl_min_le_init y t
    · exact foldl_min_le h t y hy

theorem init_le_foldl_max (h : ℚ) (t : List ℚ) : h ≤ t.foldl max h := by
  induction t generalizing h with
  | nil => exact le_rfl
  | cons a t ih => exact le_trans (le_max_left h a) (ih (max h a))

theorem foldl_max_mem (h : ℚ) (t : List ℚ) : t.foldl max h ∈ h :: t := by
  induction t generalizing h with
  | nil => simp
  | cons a t ih =>
    rcases List.mem_cons.mp (ih (max h a)) with hc | hc
    · rcases max_choice h a with hm | hm
      · exact List.mem_cons.mpr (Or.inl (hc.trans hm))
      · exact List.mem_cons.mpr (Or.inr (List.mem_cons.mpr (Or.inl (hc.trans hm))))
    · exact List.mem_cons.mpr (Or.inr (List.mem_cons.mpr (Or.inr hc)))

theorem le_foldl_max (h : ℚ) (t : List ℚ) (y : ℚ) (hy : y ∈ t) : y ≤ t.foldl max h := by
  induction t generalizing h with
  | nil => exact absurd hy (by simp)
  | cons a t ih =>
    rcases List.mem_cons.mp hy with rfl | hy
    · exact le_trans (le_max_right h y) (init_le_foldl_max (max h y) t)
    · exact ih (max h a) hy

theorem npMax_mem (l : List ℚ) (hl : l ≠ []) : npMax l ∈ l := by
  cases l with
  | nil => exact absurd rfl hl
  | cons h t => exact foldl_max_mem h t

theorem le_npMax (l : List ℚ) (y : ℚ) (hy : y ∈ l) : y ≤ npMax l := by
  cases l with
  | nil => exact absurd hy (by simp)
  | cons h t =>
    rcases List.mem_cons.mp hy with rfl | hy
    · exact init_le_foldl_max y t
    · exact le_foldl_max h t y hy

theorem npMin_lt_npMax (l : List ℚ) (a b : ℚ) (ha : a ∈ l) (hb : b ∈ l) (hab : a ≠ b) :
    npMin l < npMax l := by
  rcases lt_or_le (npMin l) (npMax l) with h | h
  · exact h
  · exfalso
    apply hab
    have h1 : a ≤ npMin l := le_trans (le_npMax l a ha) h
    have h2 : b ≤ npMin l := le_trans (le_npMax l b hb) h
    have h3 := npMin_le l a ha
    have h4 := npMin_le l b hb
    rw [le_antisymm h1 h3, le_antisymm h2 h4]

/-! ## Helper lemmas: zip and fold characterizations -/

theorem zip_replicate_right {α : Type} (l : List α) (c : ℚ) :
    l.zip (List.replicate l.length c) = l.map (fun a => (a, c)) := by
  induction l with
  | nil => rfl
  | cons h t ih => simp [List.replicate_succ, ih]

theorem foldl_grow {α : Type} (L : List α) (c0 : List ℚ) (A0 : List (List ℚ)) (b0 : List ℚ)
    (f : α → List (List ℚ)) :
    L.foldl (fun (acc : LPTriple) i => (acc.1, acc.2.1 ++ f i, acc.2.2 ++ List.replicate (f i).length 0))
        (c0, A0, b0)
      = (c0, A0 ++ (L.map f).flatten,
         b0 ++ (L.map (fun i => List.replicate (f i).length (0:ℚ))).flatten) := by
  induction L generalizing A0 b0 with
  | nil => simp
  | cons a L ih =>
    rw [List.foldl_cons, ih]
    simp [List.append_assoc]

theorem flatten_map_replicate {α : Type} (L : List α) (m : ℕ) (c : ℚ) :
    (L.map (fun _ => List.replicate m c)).flatten = List.replicate (L.length * m) c := by
  induction L with
  | nil => simp
  | cons a L ih =>
    rw [List.map_cons, List.flatten_cons, ih, ← List.replicate_add]
    congr 1
    simp [Nat.succ_mul]
    omega

theorem length_matRows (M : Matrix (Fin n) (Fin n) ℚ) : (matRows M).length = n := by
  simp [matRows]

theorem shape1_append_single (A : List (List ℚ)) (r : List ℚ) (hA : A ≠ []) :
    shape1 (A ++ [r]) = shape1 A := by
  cases A with
  | nil => exact absurd rfl hA
  | cons a t => rfl

theorem foldl_rmax (L : List ℕ) (Rmax : ℚ) (c0 : List ℚ) (A0 : List (List ℚ)) (b0 : List ℚ)
    (m : ℕ) (hA : A0 ≠ []) (hm : shape1 A0 = m) :
    L.foldl (fun (acc : LPTriple) i =>
        (acc.1, acc.2.1 ++ [(List.replicate (shape1 acc.2.1) 0).set i 1], acc.2.2 ++ [Rmax]))
        (c0, A0, b0)
      = (c0, A0 ++ L.map (fun i => (List.replicate m (0:ℚ)).set i 1),
         b0 ++ List.replicate L.length Rmax) := by
  induction L generalizing A0 b0 with
  | nil => simp
  | cons a L ih =>
    rw [List.foldl_cons]
    have hne : A0 ++ [(List.replicate (shape1 A0) (0:ℚ)).set a 1] ≠ [] := by
      simp
    rw [ih _ _ hne (by rw [shape1_append_single _ _ hA, hm]), hm]
    refine congrArg (Prod.mk c0) (congrArg₂ Prod.mk ?_ ?_)
    · simp [List.append_assoc]
    · rw [List.append_assoc]
      show b0 ++ ([Rmax] ++ List.replicate L.length Rmax) = b0 ++ List.replicate (a :: L).length Rmax
      rw [List.singleton_append, ← List.replicate_succ]
      rfl

theorem foldl_l1 (L : List ℕ) (off : ℕ) (c0 : List ℚ) (A0 : List (List ℚ)) (b0 : List ℚ)
    (m : ℕ) (hA : A0 ≠ []) (hm : shape1 A0 = m) :
    L.foldl (fun (acc : LPTriple) i =>
        (acc.1,
         (acc.2.1 ++ [(List.replicate (shape1 acc.2.1) 0).set i (-1)])
           ++ [((List.replicate (shape1 (acc.2.1 ++ [(List.replicate (shape1 acc.2.1) 0).set i (-1)])) 0).set i 1).set (off + i) (-1)],
         (acc.2.2 ++ [0]) ++ [0]))
        (c0, A0, b0)
      = (c0,
         A0 ++ (L.map (fun i =>
           [(List.replicate m (0:ℚ)).set i (-1),
            ((List.replicate m (0:ℚ)).set i 1).set (off + i) (-1)])).join,
         b0 ++ List.replicate (2 * L.length) 0) := by
  induction L generalizing A0 b0 with
  | nil => simp
  | cons a L ih =>
    rw [List.foldl_cons]
    have h1 : A0 ++ [(List.replicate (shape1 A0) (0:ℚ)).set a (-1)] ≠ [] := by simp
    have h2 : (A0 ++ [(List.replicate (shape1 A0) (0:ℚ)).set a (-1)])
        ++ [((List.replicate (shape1 (A0 ++ [(List.replicate (shape1 A0) (0:ℚ)).set a (-1)])) 0).set a 1).set (off + a) (-1)] ≠ [] := by
      simp
    rw [ih _ _ h2 (by
      rw [shape1_append_single _ _ h1, shape1_append_single _ _ hA, hm])]
    rw [shape1_append_single _ _ hA, hm]
    refine congrArg (Prod.mk c0) (congrArg₂ Prod.mk ?_ ?_)
    · simp [List.append_assoc]
    · have h3 : (0:ℚ) :: (0:ℚ) :: List.replicate (2 * L.length) 0
          = List.replicate (2 * (a :: L).length) 0 := by
        rw [← List.replicate_succ, ← List.replicate_succ]
        congr 1
      rw [List.append_assoc, List.append_assoc, ← h3]
      rfl

/-! ## Closed forms of the four assembly stages on the `lp_irl` pipeline -/

/-- The `(k-1)·n` optimal-policy rows (stage 1), stacked in loop order. -/
def stack1 (I : IRLInput n k) (D : Matrix (Fin n) (Fin n) ℚ) : List (List ℚ) :=
  ((List.finRange (k - 1)).map (fun idx => matRows (opBlock I D idx))).flatten

/-- The `(k-1)·n` costly-single-step rows (stage 2), block and identity parts. -/
def stack2 (I : IRLInput n k) (D : Matrix (Fin n) (Fin n) ℚ) : List (List ℚ) :=
  ((List.finRange (k - 1)).map (fun idx =>
    (List.finRange n).map (fun s => rowOf (opBlock I D idx) s ++ idRow n s))).flatten

/-- The n reward-bound rows (stage 3), at column width 2n. -/
def rmaxRows (n : ℕ) : List (List ℚ) :=
  (List.range n).map (fun i => (List.replicate (2 * n) (0:ℚ)).set i 1)

/-- The 2n L1-encoding rows (stage 4), at column width 3n. -/
def l1Rows (n : ℕ) : List (List ℚ) :=
  ((List.range n).map (fun i =>
    [(List.replicate (3 * n) (0:ℚ)).set i (-1),
     ((List.replicate (3 * n) (0:ℚ)).set i 1).set (2 * n + i) (-1)])).flatten

theorem length_flatten_const {α : Type} (L : List (List α)) (m : ℕ)
    (h : ∀ l ∈ L, l.length = m) : L.flatten.length = L.length * m := by
  induction L with
  | nil => simp
  | cons a L ih =>
    rw [List.flatten_cons, List.length_append, h a (by simp),
      ih (fun l hl => h l (List.mem_cons_of_mem a hl))]
    simp [Nat.succ_mul, Nat.add_comm]

theorem stack1_rows_length (I : IRLInput n k) (D : Matrix (Fin n) (Fin n) ℚ) :
    ∀ r ∈ stack1 I D, r.length = n := by
  intro r hr
  rw [stack1, List.mem_flatten] at hr
  obtain ⟨block, hb, hrb⟩ := hr
  rw [List.mem_map] at hb
  obtain ⟨idx, _, rfl⟩ := hb
  rw [matRows, List.mem_map] at hrb
  obtain ⟨s, _, rfl⟩ := hrb
  exact length_rowOf _ s

theorem stack1_length (I : IRLInput n k) (D : Matrix (Fin n) (Fin n) ℚ) :
    (stack1 I D).length = (k - 1) * n := by
  rw [stack1, length_flatten_const _ n, List.length_map, List.length_finRange]
  intro l hl
  rw [List.mem_map] at hl
  obtain ⟨idx, _, rfl⟩ := hl
  exact length_matRows _

theorem stack2_rows_length (I : IRLInput n k) (D : Matrix (Fin n) (Fin n) ℚ) :
    ∀ r ∈ stack2 I D, r.length = 2 * n := by
  intro r hr
  rw [stack2, List.mem_flatten] at hr
  obtain ⟨block, hb, hrb⟩ := hr
  rw [List.mem_map] at hb
  obtain ⟨idx, _, rfl⟩ := hb
  rw [List.mem_map] at hrb
  obtain ⟨s, _, rfl⟩ := hrb
  rw [List.length_append, length_rowOf, length_idRow]
  omega

theorem stack2_length (I : IRLInput n k) (D : Matrix (Fin n) (Fin n) ℚ) :
    (stack2 I D).length = (k - 1) * n := by
  rw [stack2, length_flatten_const _ n, List.length_map, List.length_finRange]
  intro l hl
  rw [List.mem_map] at hl
  obtain ⟨idx, _, rfl⟩ := hl
  simp

theorem shape1_of_forall_mem (A : List (List ℚ)) (m : ℕ) (hA : A ≠ [])
    (h : ∀ r ∈ A, r.length = m) : shape1 A = m := by
  cases A with
  | nil => exact absurd rfl hA
  | cons a t => exact h a (by simp)

/-- Stage 1 appends exactly the stacked blocks and `(k-1)·n` zero bounds,
leaving `c` unchanged — for an arbitrary incoming triple. -/
theorem stage1_eq (I : IRLInput n k) (D : Matrix (Fin n) (Fin n) ℚ) (cab : LPTriple) :
    add_optimal_policy_constraints I D cab
      = (cab.1, cab.2.1 ++ stack1 I D, cab.2.2 ++ List.replicate ((k - 1) * n) 0) := by
  obtain ⟨c0, A0, b0⟩ := cab
  rw [add_optimal_policy_constraints]
  simp only []
  rw [show (fun (acc : LPTriple) idx =>
      (acc.1, acc.2.1 ++ matRows (opBlock I D idx),
       acc.2.2 ++ List.replicate (matRows (opBlock I D idx)).length 0))
    = fun (acc : LPTriple) idx =>
      (acc.1, acc.2.1 ++ matRows (opBlock I D idx),
       acc.2.2 ++ List.replicate (matRows (opBlock I D idx)).length 0) from rfl]
  rw [foldl_grow]
  refine congrArg (Prod.mk c0) (congrArg₂ Prod.mk rfl ?_)
  have : ∀ idx : Fin (k - 1),
      List.replicate (matRows (opBlock I D idx)).length (0:ℚ) = List.replicate n 0 := by
    intro idx
    rw [length_matRows]
  rw [List.map_congr_left (fun idx _ => this idx), flatten_map_replicate,
    List.length_finRange]

/-- Stage 2 appends n `-1` objective coefficients, pads the rows, and appends
the stacked `[block | padding | identity]` rows with `(k-1)·n` zero bounds —
for an arbitrary incoming triple. -/
theorem stage2_eq (I : IRLInput n k) (D : Matrix (Fin n) (Fin n) ℚ) (cab : LPTriple) :
    add_costly_single_step_constraints I D cab
      = (cab.1 ++ List.replicate n (-1),
         cab.2.1.map (fun r => r ++ List.replicate n 0)
           ++ ((List.finRange (k - 1)).map (fun idx => (List.finRange n).map
                (fun s => rowOf (opBlock I D idx) s
                  ++ List.replicate ((cab.1 ++ List.replicate n (-1:ℚ)).length - n - n) 0
                  ++ idRow n s))).flatten,
         cab.2.2 ++ List.replicate ((k - 1) * n) 0) := by
  obtain ⟨c0, A0, b0⟩ := cab
  rw [add_costly_single_step_constraints]
  simp only []
  rw [foldl_grow]
  refine congrArg (Prod.mk _) (congrArg₂ Prod.mk rfl ?_)
  have : ∀ idx : Fin (k - 1),
      List.replicate ((List.finRange n).map
        (fun s => rowOf (opBlock I D idx) s
          ++ List.replicate ((c0 ++ List.replicate n (-1:ℚ)).length - n - n) 0
          ++ idRow n s)).length (0:ℚ) = List.replicate n 0 := by
    intro idx
    simp
  rw [List.map_congr_left (fun idx _ => this idx), flatten_map_replicate,
    List.length_finRange]

/-- The fully assembled LP of `lp_irl` in closed form: objective
`[g | -1…-1 | l1…l1]`, constraint rows = padded stage-1 blocks, padded stage-2
blocks, padded reward-bound rows, then L1 rows, with the matching bounds. -/
theorem assembleLP_eq (I : IRLInput n k) (D : Matrix (Fin n) (Fin n) ℚ) (g : List ℚ)
    (hg : g.length = n) (hn : 1 ≤ n) (hk : 2 ≤ k) :
    assembleLP I D g
      = (g ++ List.replicate n (-1) ++ List.replicate n I.l1,
         (stack1 I D).map (fun r => (r ++ List.replicate n 0) ++ List.replicate n 0)
           ++ ((stack2 I D).map (fun r => r ++ List.replicate n 0)
           ++ ((rmaxRows n).map (fun r => r ++ List.replicate n 0)
           ++ l1Rows n)),
         List.replicate ((k - 1) * n) 0
           ++ (List.replicate ((k - 1) * n) 0
           ++ (List.replicate n I.Rmax
           ++ List.replicate (2 * n) 0))) := by
  have hpad : (g ++ List.replicate n (-1:ℚ)).length - n - n = 0 := by
    simp [hg]
  have hstack2p : ((List.finRange (k - 1)).map (fun idx => (List.finRange n).map
        (fun s => rowOf (opBlock I D idx) s
          ++ List.replicate ((g ++ List.replicate n (-1:ℚ)).length - n - n) 0
          ++ idRow n s))).flatten = stack2 I D := by
    rw [hpad, stack2]
    simp
  rw [assembleLP, stage1_eq, stage2_eq]
  simp only [List.nil_append]
  rw [hstack2p]
  -- stage 3
  set s1p : List (List ℚ) := (stack1 I D).map (fun r => r ++ List.replicate n 0) with hs1p
  have hA2mem : ∀ r ∈ s1p ++ stack2 I D, r.length = 2 * n := by
    intro r hr
    rcases List.mem_append.mp hr with hr | hr
    · rw [hs1p, List.mem_map] at hr
      obtain ⟨r0, hr0, rfl⟩ := hr
      rw [List.length_append, stack1_rows_length I D r0 hr0]
      simp
      omega
    · exact stack2_rows_length I D r hr
  have hA2ne : s1p ++ stack2 I D ≠ [] := by
    have hpos : 0 < (s1p ++ stack2 I D).length := by
      rw [List.length_append, hs1p, List.length_map, stack1_length]
      have := Nat.mul_pos (show 0 < k - 1 by omega) (show 0 < n by omega)
      omega
    exact List.ne_nil_of_length_pos hpos
  rw [add_rmax_constraints, foldl_rmax _ _ _ _ _ (2 * n) hA2ne
    (shape1_of_forall_mem _ _ hA2ne hA2mem)]
  -- stage 4
  rw [add_l1norm_constraints]
  simp only []
  set A3 : List (List ℚ) := (s1p ++ stack2 I D)
    ++ List.map (fun i => (List.replicate (2 * n) (0:ℚ)).set i 1) (List.range n) with hA3
  have hA3mem : ∀ r ∈ A3.map (fun r => r ++ List.replicate n 0), r.length = 3 * n := by
    intro r hr
    rw [List.mem_map] at hr
    obtain ⟨r0, hr0, rfl⟩ := hr
    rw [List.length_append, List.length_replicate]
    rcases List.mem_append.mp hr0 with hr0 | hr0
    · rw [hA2mem r0 hr0]
      omega
    · rw [List.mem_map] at hr0
      obtain ⟨i, _, rfl⟩ := hr0
      simp
      omega
  have hA3ne : A3.map (fun r => r ++ List.replicate n 0) ≠ [] := by
    intro hcon
    rw [List.map_eq_nil_iff, hA3] at hcon
    exact hA2ne (List.append_eq_nil.mp hcon).1
  have hoff : (g ++ List.replicate n (-1:ℚ) ++ List.replicate n I.l1).length - n = 2 * n := by
    simp [hg]
    omega
  rw [foldl_l1 _ _ _ _ _ (3 * n) hA3ne (shape1_of_forall_mem _ _ hA3ne hA3mem)]
  rw [hoff]
  refine congrArg₂ Prod.mk rfl (congrArg₂ Prod.mk ?_ ?_)
  · rw [hA3, List.map_append, List.map_append, List.append_assoc, List.append_assoc,
      hs1p, List.map_map]
    rfl
  · simp only [List.append_assoc, List.length_range]

/-! ## Feasibility consequences of the assembled constraints -/

theorem Feasible_append_split (A1 A2 : List (List ℚ)) (b1 b2 x : List ℚ)
    (hlen : A1.length = b1.length) (h : Feasible (A1 ++ A2) (b1 ++ b2) x) :
    Feasible A1 b1 x ∧ Feasible A2 b2 x := by
  constructor <;> intro p hp
  · exact h p (by rw [List.zip_append hlen]; exact List.mem_append_left _ hp)
  · exact h p (by rw [List.zip_append hlen]; exact List.mem_append_right _ hp)

theorem Feasible_replicate (A : List (List ℚ)) (m : ℕ) (c : ℚ) (x : List ℚ)
    (hm : A.length = m) (h : Feasible A (List.replicate m c) x) : ∀ r ∈ A, dot r x ≤ c := by
  subst hm
  intro r hr
  refine h (r, c) ?_
  rw [zip_replicate_right]
  exact List.mem_map_of_mem _ hr

/-- The four constraint groups of the assembled LP, separated. -/
theorem feasible_groups (I : IRLInput n k) (D : Matrix (Fin n) (Fin n) ℚ) (g x : List ℚ)
    (hg : g.length = n) (hn : 1 ≤ n) (hk : 2 ≤ k)
    (hfeas : Feasible (assembleLP I D g).2.1 (assembleLP I D g).2.2 x) :
    (∀ r ∈ stack1 I D, dot ((r ++ List.replicate n 0) ++ List.replicate n 0) x ≤ 0)
      ∧ (∀ r ∈ stack2 I D, dot (r ++ List.replicate n 0) x ≤ 0)
      ∧ (∀ r ∈ rmaxRows n, dot (r ++ List.replicate n 0) x ≤ I.Rmax)
      ∧ (∀ r ∈ l1Rows n, dot r x ≤ 0) := by
  rw [assembleLP_eq I D g hg hn hk] at hfeas
  simp only [] at hfeas
  have h1 := Feasible_append_split _ _ _ _ x
    (by rw [List.length_map, stack1_length, List.length_replicate]) hfeas
  have h2 := Feasible_append_split _ _ _ _ x
    (by rw [List.length_map, stack2_length, List.length_replicate]) h1.2
  have h3 := Feasible_append_split _ _ _ _ x
    (by rw [List.length_map, rmaxRows, List.length_map, List.length_range,
      List.length_replicate]) h2.2
  refine ⟨?_, ?_, ?_, ?_⟩
  · intro r hr
    have := Feasible_replicate _ ((k - 1) * n) 0 x
      (by rw [List.length_map, stack1_length]) h1.1
    exact this _ (List.mem_map_of_mem _ hr)
  · intro r hr
    have := Feasible_replicate _ ((k - 1) * n) 0 x
      (by rw [List.length_map, stack2_length]) h2.1
    exact this _ (List.mem_map_of_mem _ hr)
  · intro r hr
    have := Feasible_replicate _ n I.Rmax x
      (by rw [List.length_map, rmaxRows, List.length_map, List.length_range]) h3.1
    exact this _ (List.mem_map_of_mem _ hr)
  · intro r hr
    have hlen4 : (l1Rows n).length = 2 * n := by
      rw [l1Rows, length_flatten_const _ 2 (by
        intro l hl
        rw [List.mem_map] at hl
        obtain ⟨i, _, rfl⟩ := hl
        rfl), List.length_map, List.length_range]
      omega
    have := Feasible_replicate _ (2 * n) 0 x hlen4 h3.2
    exact this _ hr

/-- Every feasible point of the assembled LP satisfies the stage-1
(policy-optimality) inequalities `(Tpi - Tnotpi[idx]) (I-γTpi)⁻¹ x[0:n] ≥ 0`
at every state and deviation index. -/
theorem feasible_stage1_ineq (I : IRLInput n k) (D : Matrix (Fin n) (Fin n) ℚ) (g x : List ℚ)
    (hg : g.length = n) (hn : 1 ≤ n) (hk : 2 ≤ k) (hx : x.length = 3 * n)
    (hfeas : Feasible (assembleLP I D g).2.1 (assembleLP I D g).2.2 x) :
    ∀ (idx : Fin (k - 1)) (s : Fin n),
      0 ≤ (((Tpi I - Tnotpi I idx) * D) *ᵥ xvec n x) s := by
  intro idx s
  have hmem : rowOf (opBlock I D idx) s ∈ stack1 I D := by
    rw [stack1, List.mem_flatten]
    exact ⟨matRows (opBlock I D idx),
      List.mem_map_of_mem _ (List.mem_finRange idx),
      List.mem_map_of_mem _ (List.mem_finRange s)⟩
  have hd := (feasible_groups I D g x hg hn hk hfeas).1 _ hmem
  have e1 := dot_append (rowOf (opBlock I D idx) s ++ List.replicate n 0)
    (List.replicate n 0) x
    (by rw [List.length_append, length_rowOf, List.length_replicate]; omega)
  have e2 := dot_append (rowOf (opBlock I D idx) s) (List.replicate n 0) x
    (by rw [length_rowOf]; omega)
  rw [e1, e2, dot_replicate_zero, dot_replicate_zero, add_zero, add_zero,
    dot_rowOf _ _ _ (by omega)] at hd
  have hsum : ∑ j, opBlock I D idx s j * xvec n x j
      = -((((Tpi I - Tnotpi I idx) * D) *ᵥ xvec n x) s) := by
    rw [Matrix.mulVec, Matrix.dotProduct, ← Finset.sum_neg_distrib]
    refine Finset.sum_congr rfl (fun j _ => ?_)
    rw [opBlock, Matrix.neg_apply]
    ring
  rw [hsum] at hd
  linarith

/-- Every feasible point of the assembled LP satisfies the stage-2
(costly-single-step) inequalities `margin_s ≤ advantage_s` at every state and
deviation index. -/
theorem feasible_stage2_ineq (I : IRLInput n k) (D : Matrix (Fin n) (Fin n) ℚ) (g x : List ℚ)
    (hg : g.length = n) (hn : 1 ≤ n) (hk : 2 ≤ k) (hx : x.length = 3 * n)
    (hfeas : Feasible (assembleLP I D g).2.1 (assembleLP I D g).2.2 x) :
    ∀ (idx : Fin (k - 1)) (s : Fin n),
      x.getD (n + s.val) 0 ≤ (((Tpi I - Tnotpi I idx) * D) *ᵥ xvec n x) s := by
  intro idx s
  have hmem : rowOf (opBlock I D idx) s ++ idRow n s ∈ stack2 I D := by
    rw [stack2, List.mem_flatten]
    exact ⟨(List.finRange n).map (fun s => rowOf (opBlock I D idx) s ++ idRow n s),
      List.mem_map_of_mem _ (List.mem_finRange idx),
      List.mem_map_of_mem _ (List.mem_finRange s)⟩
  have hd := (feasible_groups I D g x hg hn hk hfeas).2.1 _ hmem
  have e1 := dot_append (rowOf (opBlock I D idx) s ++ idRow n s) (List.replicate n 0) x
    (by rw [List.length_append, length_rowOf, length_idRow]; omega)
  have e2 := dot_append (rowOf (opBlock I D idx) s) (idRow n s) x
    (by rw [length_rowOf]; omega)
  rw [e1, e2, dot_replicate_zero, add_zero, dot_rowOf _ _ _ (by omega), length_rowOf,
    dot_idRow _ _ (by rw [List.length_drop]; omega)] at hd
  have hdrop : (x.drop n).getD s.val 0 = x.getD (n + s.val) 0 := by
    rw [List.getD_eq_getElem?_getD, List.getD_eq_getElem?_getD, List.getElem?_drop]
  rw [hdrop] at hd
  have hsum : ∑ j, opBlock I D idx s j * xvec n x j
      = -((((Tpi I - Tnotpi I idx) * D) *ᵥ xvec n x) s) := by
    rw [Matrix.mulVec, Matrix.dotProduct, ← Finset.sum_neg_distrib]
    refine Finset.sum_congr rfl (fun j _ => ?_)
    rw [opBlock]
    rw [Matrix.neg_apply]
    ring
  rw [hsum] at hd
  linarith

/-- Every feasible point of the assembled LP has non-negative reward
variables `x[0:n]` (forced by the `-R_i ≤ 0` rows of stage 4). -/
theorem feasible_nonneg (I : IRLInput n k) (D : Matrix (Fin n) (Fin n) ℚ) (g x : List ℚ)
    (hg : g.length = n) (hn : 1 ≤ n) (hk : 2 ≤ k) (hx : x.length = 3 * n)
    (hfeas : Feasible (assembleLP I D g).2.1 (assembleLP I D g).2.2 x) :
    ∀ i < n, 0 ≤ x.getD i 0 := by
  intro i hi
  have hmem : (List.replicate (3 * n) (0:ℚ)).set i (-1) ∈ l1Rows n := by
    rw [l1Rows, List.mem_flatten]
    refine ⟨[(List.replicate (3 * n) (0:ℚ)).set i (-1),
      ((List.replicate (3 * n) (0:ℚ)).set i 1).set (2 * n + i) (-1)],
      List.mem_map_of_mem _ (List.mem_range.mpr hi), by simp⟩
  have hd := (feasible_groups I D g x hg hn hk hfeas).2.2.2 _ hmem
  rw [dot_single _ _ _ _ (by omega) (by omega)] at hd
  linarith

/-! ## Matrix algebra for the optimality argument -/

/-- The all-ones vector over states. -/
def onesVec (n : ℕ) : Fin n → ℚ := fun _ => 1

theorem mulVec_onesVec (M : Matrix (Fin n) (Fin n) ℚ) (h : ∀ i, ∑ j, M i j = 1) :
    M *ᵥ onesVec n = onesVec n := by
  funext i
  simp only [Matrix.mulVec, Matrix.dotProduct, onesVec, mul_one]
  exact h i

theorem Tpi_rowsum (I : IRLInput n k) (hT1 : ∀ s a, ∑ s', trans I s a s' = 1) (i : Fin n) :
    ∑ j, Tpi I i j = 1 := hT1 i (I.pi i)

theorem Tnotpi_rowsum (I : IRLInput n k) (hT1 : ∀ s a, ∑ s', trans I s a s' = 1)
    (idx : Fin (k - 1)) (i : Fin n) : ∑ j, Tnotpi I idx i j = 1 := hT1 i _

theorem Tpi_nonneg (I : IRLInput n k) (hT0 : ∀ s a s', 0 ≤ trans I s a s') (i j : Fin n) :
    0 ≤ Tpi I i j := hT0 i (I.pi i) j

/-- The matrix `I - γ·Tpi` is nonsingular for a substochastic discount `0 ≤ γ < 1` and a
row-stochastic `Tpi`: the inversion in the source cannot fail on valid input. -/
theorem resolvent_det_ne_zero (I : IRLInput n k)
    (hT0 : ∀ s a s', 0 ≤ trans I s a s') (hT1 : ∀ s a, ∑ s', trans I s a s' = 1)
    (hg0 : 0 ≤ I.gamma) (hg1 : I.gamma < 1) :
    (1 - I.gamma • Tpi I).det ≠ 0 := by
  intro hdet
  obtain ⟨v, hv0, hveq⟩ := (Matrix.exists_mulVec_eq_zero_iff).mpr hdet
  have hvi : ∀ i, v i = I.gamma * ∑ j, Tpi I i j * v j := by
    intro i
    have := congrFun hveq i
    simp only [Matrix.sub_mulVec, Matrix.smul_mulVec_assoc, Matrix.one_mulVec,
      Pi.sub_apply, Pi.smul_apply, Pi.zero_apply, smul_eq_mul] at this
    have h2 : (Tpi I *ᵥ v) i = ∑ j, Tpi I i j * v j := by
      simp [Matrix.mulVec, Matrix.dotProduct]
    rw [h2] at this
    linarith
  obtain ⟨i0, _, hmax⟩ := Finset.exists_max_image Finset.univ (fun i => |v i|)
    (by
      obtain ⟨j, hj⟩ := Function.ne_iff.mp hv0
      exact ⟨j, Finset.mem_univ j⟩)
  have h0 : 0 < |v i0| := by
    obtain ⟨j, hj⟩ := Function.ne_iff.mp hv0
    have := hmax j (Finset.mem_univ j)
    have hj' : 0 < |v j| := abs_pos.mpr hj
    linarith
  have hchain : |v i0| ≤ I.gamma * |v i0| := by
    conv_lhs => rw [hvi i0]
    rw [abs_mul, abs_of_nonneg hg0]
    refine mul_le_mul_of_nonneg_left ?_ hg0
    calc |∑ j, Tpi I i0 j * v j| ≤ ∑ j, |Tpi I i0 j * v j| :=
          Finset.abs_sum_le_sum_abs _ _
      _ = ∑ j, Tpi I i0 j * |v j| := by
          refine Finset.sum_congr rfl (fun j _ => ?_)
          rw [abs_mul, abs_of_nonneg (Tpi_nonneg I hT0 i0 j)]
      _ ≤ ∑ j, Tpi I i0 j * |v i0| :=
          Finset.sum_le_sum (fun j _ =>
            mul_le_mul_of_nonneg_left (hmax j (Finset.mem_univ j)) (Tpi_nonneg I hT0 i0 j))
      _ = |v i0| := by
          rw [← Finset.sum_mul, Tpi_rowsum I hT1 i0, one_mul]
  have := mul_lt_of_lt_one_left h0 hg1
  linarith

theorem invMat_mul (M : Matrix (Fin n) (Fin n) ℚ) (h : M.det ≠ 0) : invMat M * M = 1 := by
  rw [invMat, Matrix.smul_mul, Matrix.adjugate_mul, smul_smul, inv_mul_cancel₀ h, one_smul]

theorem mul_invMat (M : Matrix (Fin n) (Fin n) ℚ) (h : M.det ≠ 0) : M * invMat M = 1 := by
  rw [invMat, Matrix.mul_smul, Matrix.mul_adjugate, smul_smul, inv_mul_cancel₀ h, one_smul]

theorem T_disc_inv_mulVec_onesVec (I : IRLInput n k)
    (hT1 : ∀ s a, ∑ s', trans I s a s' = 1)
    (hdet : (1 - I.gamma • Tpi I).det ≠ 0) (hg1 : I.gamma ≠ 1) :
    T_disc_inv I *ᵥ onesVec n = (1 - I.gamma)⁻¹ • onesVec n := by
  have h1 : (1 - I.gamma • Tpi I) *ᵥ onesVec n = (1 - I.gamma) • onesVec n := by
    rw [Matrix.sub_mulVec, Matrix.one_mulVec, Matrix.smul_mulVec_assoc,
      mulVec_onesVec _ (Tpi_rowsum I hT1)]
    funext i
    simp [onesVec]
  have h2 : T_disc_inv I *ᵥ ((1 - I.gamma • Tpi I) *ᵥ onesVec n) = onesVec n := by
    rw [Matrix.mulVec_mulVec, T_disc_inv, invMat_mul _ hdet, Matrix.one_mulVec]
  rw [h1, Matrix.mulVec_smul] at h2
  have hne : (1 - I.gamma) ≠ 0 := fun hz => hg1 (by linarith [hz])
  have := congrArg (fun w => (1 - I.gamma)⁻¹ • w) h2
  simpa [smul_smul, inv_mul_cancel₀ hne] using this

theorem opD_mulVec_onesVec (I : IRLInput n k) (idx : Fin (k - 1))
    (hT1 : ∀ s a, ∑ s', trans I s a s' = 1)
    (hdet : (1 - I.gamma • Tpi I).det ≠ 0) (hg1 : I.gamma ≠ 1) :
    ((Tpi I - Tnotpi I idx) * T_disc_inv I) *ᵥ onesVec n = 0 := by
  rw [← Matrix.mulVec_mulVec, T_disc_inv_mulVec_onesVec I hT1 hdet hg1,
    Matrix.mulVec_smul, Matrix.sub_mulVec, mulVec_onesVec _ (Tpi_rowsum I hT1),
    mulVec_onesVec _ (Tnotpi_rowsum I hT1 idx)]
  simp

/-- A matrix annihilating the ones vector maps the affine family
`α·w + β·1` to `α·(M w)`. -/
theorem mulVec_affine (M : Matrix (Fin n) (Fin n) ℚ) (w : Fin n → ℚ) (α β : ℚ)
    (h : M *ᵥ onesVec n = 0) :
    M *ᵥ (fun i => α * w i + β) = α • (M *ᵥ w) := by
  have hfun : (fun i => α * w i + β) = α • w + β • onesVec n := by
    funext i
    simp [onesVec, smul_eq_mul]
  rw [hfun, Matrix.mulVec_add, Matrix.mulVec_smul, Matrix.mulVec_smul, h]
  simp

/-! ## Reward extraction -/

theorem extract_rewards_getD (Rmax : ℚ) (m : ℕ) (x : List ℚ) (i : ℕ)
    (hi : i < m) (hx : m ≤ x.length) :
    (extract_rewards Rmax m x).getD i 0
      = Rmax * ((x.getD i 0 - npMin (x.take m)) / (npMax (x.take m) - npMin (x.take m))) := by
  have hix : i < x.length := lt_of_lt_of_le hi hx
  rw [extract_rewards, normalize, List.map_map,
    List.getD_eq_getElem?_getD, List.getElem?_map, List.getElem?_take_of_lt hi,
    List.getElem?_eq_getElem hix, List.getD_eq_getElem?_getD,
    List.getElem?_eq_getElem hix]
  rfl

theorem extract_rewards_length (Rmax : ℚ) (m : ℕ) (x : List ℚ) (hx : m ≤ x.length) :
    (extract_rewards Rmax m x).length = m := by
  simp [extract_rewards, normalize]
  omega

theorem take_ne_nil (m : ℕ) (x : List ℚ) (hm : 1 ≤ m) (hx : m ≤ x.length) :
    x.take m ≠ [] := by
  intro hcon
  have hl : (x.take m).length = m := by
    rw [List.length_take]
    omega
  rw [hcon] at hl
  simp at hl
  omega

/-- Each non-policy action index is hit: for any `a ≠ pi s` there is a
deviation index whose non-policy action at `s` is `a`. -/
theorem npActions_exists (I : IRLInput n k) (s : Fin n) (a : Fin k) (ha : a ≠ I.pi s) :
    ∃ idx : Fin (k - 1),
      (npActions I s).get (Fin.cast (npActions_length I s).symm idx) = a := by
  have hmem : a ∈ npActions I s :=
    (List.mem_erase_of_ne ha).mpr (List.mem_finRange a)
  obtain ⟨m, hm⟩ := List.mem_iff_get.mp hmem
  refine ⟨Fin.cast (npActions_length I s) m, ?_⟩
  have : Fin.cast (npActions_length I s).symm (Fin.cast (npActions_length I s) m) = m := by
    ext
    rfl
  rw [this, hm]

/-! ## Claim C6: reward extraction and normalization bounds -/

/-- C6: reward extraction takes exactly the first n entries of the solver's
solution and returns `Rmax * (x_i - min) / (max - min)`; for every solution
whose first n entries are not all equal, every returned entry lies in
`[0, Rmax]`, the minimum returned entry is exactly 0 and the maximum returned
entry is exactly Rmax. -/
theorem lp_irl_C6_extraction (Rmax : ℚ) (m : ℕ) (x : List ℚ)
    (hm : 1 ≤ m) (hx : m ≤ x.length) (hR : 0 < Rmax)
    (hne : ∃ a ∈ x.take m, ∃ b ∈ x.take m, a ≠ b) :
    (extract_rewards Rmax m x).length = m
      ∧ (∀ i < m, (extract_rewards Rmax m x).getD i 0
          = Rmax * ((x.getD i 0 - npMin (x.take m)) / (npMax (x.take m) - npMin (x.take m))))
      ∧ (∀ r ∈ extract_rewards Rmax m x, 0 ≤ r ∧ r ≤ Rmax)
      ∧ npMin (extract_rewards Rmax m x) = 0
      ∧ npMax (extract_rewards Rmax m x) = Rmax := by
  obtain ⟨a, ha, b, hb, hab⟩ := hne
  have hvne : x.take m ≠ [] := take_ne_nil m x hm hx
  have hd : 0 < npMax (x.take m) - npMin (x.take m) := by
    have := npMin_lt_npMax (x.take m) a b ha hb hab
    linarith
  have hmem_iff : ∀ r, r ∈ extract_rewards Rmax m x ↔
      ∃ v ∈ x.take m,
        Rmax * ((v - npMin (x.take m)) / (npMax (x.take m) - npMin (x.take m))) = r := by
    intro r
    rw [extract_rewards, normalize, List.map_map]
    exact List.mem_map
  have hbound : ∀ r ∈ extract_rewards Rmax m x, 0 ≤ r ∧ r ≤ Rmax := by
    intro r hr
    obtain ⟨v, hv, rfl⟩ := (hmem_iff r).mp hr
    have h1 : npMin (x.take m) ≤ v := npMin_le _ _ hv
    have h2 : v ≤ npMax (x.take m) := le_npMax _ _ hv
    constructor
    · exact mul_nonneg hR.le (div_nonneg (by linarith) hd.le)
    · have hq : (v - npMin (x.take m)) / (npMax (x.take m) - npMin (x.take m)) ≤ 1 :=
        (div_le_one hd).mpr (by linarith)
      calc Rmax * ((v - npMin (x.take m)) / (npMax (x.take m) - npMin (x.take m)))
          ≤ Rmax * 1 := mul_le_mul_of_nonneg_left hq hR.le
        _ = Rmax := mul_one Rmax
  have h0mem : (0:ℚ) ∈ extract_rewards Rmax m x := by
    rw [hmem_iff]
    refine ⟨npMin (x.take m), npMin_mem _ hvne, ?_⟩
    rw [sub_self, zero_div, mul_zero]
  have hRmem : Rmax ∈ extract_rewards Rmax m x := by
    rw [hmem_iff]
    refine ⟨npMax (x.take m), npMax_mem _ hvne, ?_⟩
    rw [div_self hd.ne', mul_one]
  have hlen : (extract_rewards Rmax m x).length = m := extract_rewards_length Rmax m x hx
  have hene : extract_rewards Rmax m x ≠ [] := by
    intro hcon
    rw [hcon] at hlen
    simp at hlen
    omega
  refine ⟨hlen, ?_, hbound, ?_, ?_⟩
  · intro i hi
    exact extract_rewards_getD Rmax m x i hi hx
  · refine le_antisymm (npMin_le _ 0 h0mem) ?_
    exact (hbound _ (npMin_mem _ hene)).1
  · refine le_antisymm (hbound _ (npMax_mem _ hene)).2 ?_
    exact le_npMax _ Rmax hRmem

/-- Witness for C6 at `Rmax = 2`, `n = 2`, `x = [3, 1, 7]`. -/
theorem lp_irl_C6_extraction_witness :
    (extract_rewards 2 2 [3, 1, 7]).length = 2
      ∧ (∀ i < 2, (extract_rewards 2 2 [3, 1, 7]).getD i 0
          = 2 * ((([3, 1, 7]:List ℚ).getD i 0 - npMin (([3, 1, 7]:List ℚ).take 2))
              / (npMax (([3, 1, 7]:List ℚ).take 2) - npMin (([3, 1, 7]:List ℚ).take 2))))
      ∧ (∀ r ∈ extract_rewards 2 2 [3, 1, 7], 0 ≤ r ∧ r ≤ 2)
      ∧ npMin (extract_rewards 2 2 [3, 1, 7]) = 0
      ∧ npMax (extract_rewards 2 2 [3, 1, 7]) = 2 :=
  lp_irl_C6_extraction 2 2 [3, 1, 7] (by norm_num) (by norm_num) (by norm_num)
    ⟨3, by norm_num, 1, by norm_num, by norm_num⟩

/-! ## Claim C7: degenerate normalization -/

/-- C7 (code behaviour at the failing input): when the first n solver values
are all equal, the normalization denominator `max - min` is exactly 0, yet
`normalize`/`extract_rewards` still return a vector — there is no
`DegenerateSolutionError` anywhere in the code.  (Over `ℚ` the division by the
zero denominator yields the junk value 0; under IEEE floats the same
expression `0/0` is NaN, which the source propagates into the returned
rewards.) -/
theorem lp_irl_C7_degenerate_denominator :
    npMax (([1, 1] : List ℚ).take 2) - npMin (([1, 1] : List ℚ).take 2) = 0
      ∧ extract_rewards 10 2 [1, 1] = [10 * ((1 - 1) / 0), 10 * ((1 - 1) / 0)] := by
  constructor
  · norm_num [npMax, npMin, List.take]
  · norm_num [extract_rewards, normalize, npMax, npMin, List.take]

/-! ## Claim C8: solver failure statuses are not surfaced -/

/-- C8 (code behaviour): the post-solve step reads only `res['x']` and never
inspects the solver status, so a reward vector is produced identically for a
successful solve (status 0), an infeasible one (status 2) and an unbounded one
(status 3); no `InfeasibleError`/`UnboundedError` exists in the code. -/
theorem lp_irl_C8_status_ignored :
    (lp_irl_post 2 2 ⟨0, [2, 0]⟩).1 = [2, 0]
      ∧ (lp_irl_post 2 2 ⟨2, [2, 0]⟩).1 = [2, 0]
      ∧ (lp_irl_post 2 2 ⟨3, [2, 0]⟩).1 = [2, 0] := by
  refine ⟨?_, ?_, ?_⟩ <;>
    norm_num [lp_irl_post, extract_rewards, normalize, npMax, npMin, List.take]

/-! ## Claim C1: round-trip soundness of the recovered reward -/

/-- C1: for every valid input (row-stochastic transitions, `0 < γ < 1`,
`l1 ≥ 0`, `Rmax > 0`, `n ≥ 2`, `k ≥ 2`), any feasible solver solution of the
assembled LP whose reward slice is non-degenerate yields, after extraction and
normalization, a reward under which the observed policy is optimal: at every
state the Bellman action-value of the policy action (with
`v = (I-γTpi)⁻¹ R`) is at least the action-value of every alternative
action. -/
theorem lp_irl_C1_roundtrip (I : IRLInput n k) (g x : List ℚ)
    (hT0 : ∀ (s : Fin n) (a : Fin k) (s' : Fin n), 0 ≤ trans I s a s')
    (hT1 : ∀ (s : Fin n) (a : Fin k), ∑ s', trans I s a s' = 1)
    (hg0 : 0 < I.gamma) (hg1 : I.gamma < 1) (hR : 0 < I.Rmax) (hl1 : 0 ≤ I.l1)
    (hn : 2 ≤ n) (hk : 2 ≤ k)
    (hg : g.length = n) (hx : x.length = 3 * n)
    (hfeas : Feasible (lp_irl_LP I g).2.1 (lp_irl_LP I g).2.2 x)
    (hne : ∃ a ∈ x.take n, ∃ b ∈ x.take n, a ≠ b) :
    ∀ (s : Fin n) (a : Fin k),
      Qval I (rewardVec I x) s a ≤ Qval I (rewardVec I x) s (I.pi s) := by
  intro s a
  rcases eq_or_ne a (I.pi s) with rfl | hcase
  · exact le_rfl
  have hdet : (1 - I.gamma • Tpi I).det ≠ 0 :=
    resolvent_det_ne_zero I hT0 hT1 hg0.le hg1
  rw [lp_irl_LP] at hfeas
  obtain ⟨idx, hidx⟩ := npActions_exists I s a hcase
  have hineq := feasible_stage1_ineq I (T_disc_inv I) g x hg (by omega) hk hx hfeas idx s
  -- the extracted reward is an affine image of the raw solver variables
  obtain ⟨a0, ha0, b0, hb0, hab0⟩ := hne
  have hd : 0 < npMax (x.take n) - npMin (x.take n) := by
    have := npMin_lt_npMax (x.take n) a0 b0 ha0 hb0 hab0
    linarith
  have hrew : rewardVec I x = fun i =>
      (I.Rmax / (npMax (x.take n) - npMin (x.take n))) * xvec n x i
        + (-(I.Rmax * npMin (x.take n)) / (npMax (x.take n) - npMin (x.take n))) := by
    funext i
    rw [rewardVec, extract_rewards_getD I.Rmax n x i i.isLt (by omega)]
    have : xvec n x i = x.getD i 0 := rfl
    rw [← this]
    field_simp
    ring
  have hzero : ((Tpi I - Tnotpi I idx) * T_disc_inv I) *ᵥ onesVec n = 0 :=
    opD_mulVec_onesVec I idx hT1 hdet (ne_of_lt hg1)
  have hmul : ((Tpi I - Tnotpi I idx) * T_disc_inv I) *ᵥ rewardVec I x
      = (I.Rmax / (npMax (x.take n) - npMin (x.take n)))
          • (((Tpi I - Tnotpi I idx) * T_disc_inv I) *ᵥ xvec n x) := by
    rw [hrew]
    exact mulVec_affine _ _ _ _ hzero
  have hge : 0 ≤ (((Tpi I - Tnotpi I idx) * T_disc_inv I) *ᵥ rewardVec I x) s := by
    rw [hmul]
    simp only [Pi.smul_apply, smul_eq_mul]
    exact mul_nonneg (div_nonneg hR.le hd.le) hineq
  -- the Q-value gap of the policy action over `a` is `γ` times that quantity
  have hTa : ∀ s', trans I s a s' = Tnotpi I idx s s' := by
    intro s'
    rw [Tnotpi]
    show trans I s a s' = trans I s ((npActions I s).get _) s'
    rw [hidx]
  have hQ : Qval I (rewardVec I x) s (I.pi s) - Qval I (rewardVec I x) s a
      = I.gamma * (((Tpi I - Tnotpi I idx) * T_disc_inv I) *ᵥ rewardVec I x) s := by
    rw [Qval, Qval]
    have hv : ((Tpi I - Tnotpi I idx) * T_disc_inv I) *ᵥ rewardVec I x
        = (Tpi I - Tnotpi I idx) *ᵥ valueVec I (rewardVec I x) := by
      rw [valueVec, Matrix.mulVec_mulVec]
    rw [hv, Matrix.sub_mulVec]
    have h1 : (Tpi I *ᵥ valueVec I (rewardVec I x)) s
        = ∑ s', trans I s (I.pi s) s' * valueVec I (rewardVec I x) s' := by
      simp [Matrix.mulVec, Matrix.dotProduct, Tpi, trans_mat]
    have h2 : (Tnotpi I idx *ᵥ valueVec I (rewardVec I x)) s
        = ∑ s', trans I s a s' * valueVec I (rewardVec I x) s' := by
      simp only [Matrix.mulVec, Matrix.dotProduct]
      refine Finset.sum_congr rfl (fun s' _ => ?_)
      rw [hTa s']
    rw [Pi.sub_apply, h1, h2]
    ring
  have hprod : 0 ≤ I.gamma * (((Tpi I - Tnotpi I idx) * T_disc_inv I) *ᵥ rewardVec I x) s :=
    mul_nonneg hg0.le hge
  linarith

/-! ## Shape lemmas for the assembled system -/

theorem rmaxRows_length (n : ℕ) : (rmaxRows n).length = n := by
  simp [rmaxRows]

theorem l1Rows_length (n : ℕ) : (l1Rows n).length = 2 * n := by
  rw [l1Rows, length_flatten_const _ 2 (by
    intro l hl
    rw [List.mem_map] at hl
    obtain ⟨i, _, rfl⟩ := hl
    rfl), List.length_map, List.length_range]
  omega

theorem rmaxRows_rows_length (n : ℕ) : ∀ r ∈ rmaxRows n, r.length = 2 * n := by
  intro r hr
  rw [rmaxRows, List.mem_map] at hr
  obtain ⟨i, _, rfl⟩ := hr
  simp

theorem l1Rows_rows_length (n : ℕ) : ∀ r ∈ l1Rows n, r.length = 3 * n := by
  intro r hr
  rw [l1Rows, List.mem_flatten] at hr
  obtain ⟨l, hl, hrl⟩ := hr
  rw [List.mem_map] at hl
  obtain ⟨i, _, rfl⟩ := hl
  rcases List.mem_cons.mp hrl with rfl | hrl
  · simp
  · rcases List.mem_cons.mp hrl with rfl | hrl
    · simp
    · exact absurd hrl (by simp)

/-! ## Claim C5: dimensions and layout of the assembled LP -/

/-- C5: after all four stages, `A_ub` has exactly
`(k-1)·n + (k-1)·n + n + 2n` rows of exactly `3n` entries each, `b_ub` has as
many entries as `A_ub` has rows, and the objective has `3n` entries laid out
as `[uninitialised reward block | n margin coefficients -1 | n surrogate
coefficients l1]`. -/
theorem lp_irl_C5_shape (I : IRLInput n k) (g : List ℚ)
    (hg : g.length = n) (hn : 2 ≤ n) (hk : 2 ≤ k) :
    (lp_irl_LP I g).2.1.length = ((k - 1) * n + ((k - 1) * n + (n + 2 * n)))
      ∧ (∀ r ∈ (lp_irl_LP I g).2.1, r.length = 3 * n)
      ∧ (lp_irl_LP I g).2.2.length = (lp_irl_LP I g).2.1.length
      ∧ (lp_irl_LP I g).1.length = 3 * n
      ∧ (lp_irl_LP I g).1 = g ++ List.replicate n (-1) ++ List.replicate n I.l1 := by
  rw [lp_irl_LP, assembleLP_eq I (T_disc_inv I) g hg (by omega) hk]
  refine ⟨?_, ?_, ?_, ?_, rfl⟩
  · simp only [List.length_append, List.length_map, stack1_length, stack2_length,
      rmaxRows_length, l1Rows_length]
  · intro r hr
    rcases List.mem_append.mp hr with hr | hr
    · rw [List.mem_map] at hr
      obtain ⟨r0, hr0, rfl⟩ := hr
      rw [List.length_append, List.length_append, stack1_rows_length _ _ _ hr0]
      simp
      omega
    rcases List.mem_append.mp hr with hr | hr
    · rw [List.mem_map] at hr
      obtain ⟨r0, hr0, rfl⟩ := hr
      rw [List.length_append, stack2_rows_length _ _ _ hr0]
      simp
      omega
    rcases List.mem_append.mp hr with hr | hr
    · rw [List.mem_map] at hr
      obtain ⟨r0, hr0, rfl⟩ := hr
      rw [List.length_append, rmaxRows_rows_length _ _ hr0]
      simp
      omega
    · exact l1Rows_rows_length n r hr
  · simp only [List.length_append, List.length_map, List.length_replicate,
      stack1_length, stack2_length, rmaxRows_length, l1Rows_length]
  · simp [hg]
    omega

/-! ## A concrete 2-state, 2-action instance for witnesses -/

/-- A small MDP: action 0 always returns to state 0, action 1 always moves to
state 1; the observed policy takes action 0 everywhere; `γ = 9/10`, `l1 = 10`,
`Rmax = 2`. -/
def I0 : IRLInput 2 2 where
  T := fun r => if r = 0 then ![1, 0] else if r = 1 then ![0, 1]
    else if r = 2 then ![1, 0] else if r = 3 then ![0, 1] else ![0, 0]
  pi := fun _ => 0
  gamma := 9/10
  l1 := 10
  Rmax := 2

theorem T_disc_inv_I0 : T_disc_inv I0 = Matrix.of ![![10, 0], ![9, 1]] := by
  have hM : (1 - I0.gamma • Tpi I0) = Matrix.of ![![1/10, 0], ![-(9/10), 1]] := by
    ext i j
    fin_cases i <;> fin_cases j <;>
      simp [Tpi, trans_mat, trans, I0, Matrix.one_apply] <;> norm_num
  rw [T_disc_inv, hM, invMat]
  have hdet : (Matrix.of ![![(1:ℚ)/10, 0], ![-(9/10), 1]]).det = 1/10 := by
    rw [Matrix.det_fin_two]
    norm_num
  have hadj : (Matrix.of ![![(1:ℚ)/10, 0], ![-(9/10), 1]]).adjugate
      = Matrix.of ![![1, 0], ![9/10, 1/10]] := by
    rw [Matrix.adjugate_fin_two]
    ext i j
    fin_cases i <;> fin_cases j <;> norm_num
  rw [hdet, hadj]
  ext i j
  fin_cases i <;> fin_cases j <;> norm_num

/-- The point `x0 = [2, 0, -100, -100, 100, 100]` is feasible for the LP that `lp_irl`
assembles on `I0` (with uninitialised objective contents `[0, 0]`). -/
theorem x0_feasible :
    Feasible (lp_irl_LP I0 [0, 0]).2.1 (lp_irl_LP I0 [0, 0]).2.2
      [2, 0, -100, -100, 100, 100] := by
  rw [lp_irl_LP, T_disc_inv_I0]
  norm_num [Feasible, assembleLP, add_optimal_policy_constraints,
    add_costly_single_step_constraints, add_rmax_constraints, add_l1norm_constraints,
    matRows, rowOf, idRow, opBlock, Tpi, Tnotpi, trans_mat, trans, npActions, I0,
    shape1, dot, List.finRange_succ_eq_map, Matrix.mul_apply, Fin.sum_univ_two,
    Matrix.one_apply, List.zip, List.range_succ, List.replicate_succ,
    List.mem_cons, forall_eq_or_imp]

/-- Stage-2 output of the pipeline, in closed form. -/
theorem pipeline2_eq (I : IRLInput n k) (D : Matrix (Fin n) (Fin n) ℚ) (g : List ℚ)
    (hg : g.length = n) :
    add_costly_single_step_constraints I D (add_optimal_policy_constraints I D (g, [], []))
      = (g ++ List.replicate n (-1),
         (stack1 I D).map (fun r => r ++ List.replicate n 0) ++ stack2 I D,
         List.replicate ((k - 1) * n) 0 ++ List.replicate ((k - 1) * n) 0) := by
  have hpad : (g ++ List.replicate n (-1:ℚ)).length - n - n = 0 := by
    simp [hg]
  have hstack2p : ((List.finRange (k - 1)).map (fun idx => (List.finRange n).map
        (fun s => rowOf (opBlock I D idx) s
          ++ List.replicate ((g ++ List.replicate n (-1:ℚ)).length - n - n) 0
          ++ idRow n s))).flatten = stack2 I D := by
    rw [hpad, stack2]
    simp
  rw [stage1_eq, stage2_eq]
  simp only [List.nil_append]
  rw [hstack2p]

/-- Stage-3 output of the pipeline, in closed form. -/
theorem pipeline3_eq (I : IRLInput n k) (D : Matrix (Fin n) (Fin n) ℚ) (g : List ℚ)
    (hg : g.length = n) (hn : 1 ≤ n) (hk : 2 ≤ k) :
    add_rmax_constraints n I.Rmax
        (add_costly_single_step_constraints I D
          (add_optimal_policy_constraints I D (g, [], [])))
      = (g ++ List.replicate n (-1),
         ((stack1 I D).map (fun r => r ++ List.replicate n 0) ++ stack2 I D) ++ rmaxRows n,
         (List.replicate ((k - 1) * n) 0 ++ List.replicate ((k - 1) * n) 0)
           ++ List.replicate n I.Rmax) := by
  rw [pipeline2_eq I D g hg]
  have hA2mem : ∀ r ∈ (stack1 I D).map (fun r => r ++ List.replicate n 0) ++ stack2 I D,
      r.length = 2 * n := by
    intro r hr
    rcases List.mem_append.mp hr with hr | hr
    · rw [List.mem_map] at hr
      obtain ⟨r0, hr0, rfl⟩ := hr
      rw [List.length_append, stack1_rows_length I D r0 hr0]
      simp
      omega
    · exact stack2_rows_length I D r hr
  have hA2ne : (stack1 I D).map (fun r => r ++ List.replicate n 0) ++ stack2 I D ≠ [] := by
    have hpos : 0 < ((stack1 I D).map (fun r => r ++ List.replicate n 0) ++ stack2 I D).length := by
      rw [List.length_append, List.length_map, stack1_length]
      have := Nat.mul_pos (show 0 < k - 1 by omega) (show 0 < n by omega)
      omega
    exact List.ne_nil_of_length_pos hpos
  rw [add_rmax_constraints, foldl_rmax _ _ _ _ _ (2 * n) hA2ne
    (shape1_of_forall_mem _ _ hA2ne hA2mem)]
  simp [rmaxRows]

/-! ## Claim C2: the optimal-policy constraint stage -/

/-- C2: `add_optimal_policy_constraints` appends, for each deviation index,
exactly the n×n block `-(Tpi - Tnotpi[idx])·(I-γTpi)⁻¹` to `A_ub` and n zeros
to `b_ub` (so `(k-1)·n` rows of width n and no objective change); hence every
feasible point of the assembled LP satisfies
`(Tpi - Tnotpi[idx])·(I-γTpi)⁻¹·x[0:n] ≥ 0` componentwise at every state and
deviation index. -/
theorem lp_irl_C2_optimal_policy (I : IRLInput n k) (g x : List ℚ)
    (hg : g.length = n) (hn : 2 ≤ n) (hk : 2 ≤ k) (hx : x.length = 3 * n)
    (hfeas : Feasible (lp_irl_LP I g).2.1 (lp_irl_LP I g).2.2 x) :
    (∀ cab : LPTriple, add_optimal_policy_constraints I (T_disc_inv I) cab
        = (cab.1,
           cab.2.1 ++ ((List.finRange (k - 1)).map
             (fun idx => matRows (-((Tpi I - Tnotpi I idx) * T_disc_inv I)))).flatten,
           cab.2.2 ++ List.replicate ((k - 1) * n) 0))
      ∧ (stack1 I (T_disc_inv I)).length = (k - 1) * n
      ∧ (∀ r ∈ stack1 I (T_disc_inv I), r.length = n)
      ∧ (∀ (idx : Fin (k - 1)) (s : Fin n),
          0 ≤ (((Tpi I - Tnotpi I idx) * T_disc_inv I) *ᵥ xvec n x) s) :=
  ⟨fun cab => stage1_eq I (T_disc_inv I) cab,
   stack1_length I (T_disc_inv I),
   stack1_rows_length I (T_disc_inv I),
   fun idx s => feasible_stage1_ineq I (T_disc_inv I) g x hg (by omega) hk hx hfeas idx s⟩

/-! ## Claim C3: the costly-single-step stage -/

/-- C3: on the pipeline, `add_costly_single_step_constraints` appends n `-1`
objective coefficients (the margin surrogates), pads the existing rows with n
zero columns, and appends per deviation index the n rows
`[-(Tpi - Tnotpi[idx])·(I-γTpi)⁻¹ | identity]` (so the identity occupies the
margin columns `n..2n-1`), all with zero bounds; hence every feasible point
has `margin_s ≤ advantage` at every state and deviation index. -/
theorem lp_irl_C3_costly_single_step (I : IRLInput n k) (g x : List ℚ)
    (hg : g.length = n) (hn : 2 ≤ n) (hk : 2 ≤ k) (hx : x.length = 3 * n)
    (hfeas : Feasible (lp_irl_LP I g).2.1 (lp_irl_LP I g).2.2 x) :
    (add_costly_single_step_constraints I (T_disc_inv I)
        (add_optimal_policy_constraints I (T_disc_inv I) (g, [], []))
      = (g ++ List.replicate n (-1),
         (stack1 I (T_disc_inv I)).map (fun r => r ++ List.replicate n 0)
           ++ ((List.finRange (k - 1)).map (fun idx => (List.finRange n).map
                (fun s => rowOf (-((Tpi I - Tnotpi I idx) * T_disc_inv I)) s ++ idRow n s))).flatten,
         List.replicate ((k - 1) * n) 0 ++ List.replicate ((k - 1) * n) 0))
      ∧ (∀ (idx : Fin (k - 1)) (s : Fin n),
          x.getD (n + s.val) 0 ≤ (((Tpi I - Tnotpi I idx) * T_disc_inv I) *ᵥ xvec n x) s) :=
  ⟨pipeline2_eq I (T_disc_inv I) g hg,
   fun idx s => feasible_stage2_ineq I (T_disc_inv I) g x hg (by omega) hk hx hfeas idx s⟩

/-! ## Claim C4: the L1-regularization stage -/

/-- C4: on the pipeline, `add_l1norm_constraints` appends n `+l1` objective
coefficients (the absolute-value surrogates), pads the existing rows with n
zero columns, and appends per reward variable `i` the two rows `-R_i ≤ 0` and
`R_i - z_i ≤ 0` (`z_i` in column `2n+i`); hence every feasible point has
non-negative reward variables `x[0:n]`. -/
theorem lp_irl_C4_l1norm (I : IRLInput n k) (g x : List ℚ)
    (hg : g.length = n) (hn : 2 ≤ n) (hk : 2 ≤ k) (hx : x.length = 3 * n)
    (hfeas : Feasible (lp_irl_LP I g).2.1 (lp_irl_LP I g).2.2 x) :
    (lp_irl_LP I g
      = ((add_rmax_constraints n I.Rmax
            (add_costly_single_step_constraints I (T_disc_inv I)
              (add_optimal_policy_constraints I (T_disc_inv I) (g, [], [])))).1
           ++ List.replicate n I.l1,
         (add_rmax_constraints n I.Rmax
            (add_costly_single_step_constraints I (T_disc_inv I)
              (add_optimal_policy_constraints I (T_disc_inv I) (g, [], [])))).2.1.map
             (fun r => r ++ List.replicate n 0)
           ++ l1Rows n,
         (add_rmax_constraints n I.Rmax
            (add_costly_single_step_constraints I (T_disc_inv I)
              (add_optimal_policy_constraints I (T_disc_inv I) (g, [], [])))).2.2
           ++ List.replicate (2 * n) 0))
      ∧ (∀ i < n, 0 ≤ x.getD i 0) := by
  constructor
  · rw [lp_irl_LP, assembleLP_eq I (T_disc_inv I) g hg (by omega) hk,
      pipeline3_eq I (T_disc_inv I) g hg (by omega) hk]
    refine congrArg₂ Prod.mk rfl (congrArg₂ Prod.mk ?_ ?_)
    · rw [List.map_append, List.map_append, List.map_map]
      simp [List.append_assoc]
    · simp only [List.append_assoc]
  · exact feasible_nonneg I (T_disc_inv I) g x hg (by omega) hk hx hfeas

/-! ## Claim C9: the objective vector starts from uninitialised memory -/

/-- C9 (code behaviour at the failing input): the source creates `c` with
`np.empty(shape=[1, n])`, so the first n objective coefficients are whatever
uninitialised memory holds. Two runs on the *identical* MDP input that differ
only in those memory contents assemble different objective vectors `c`
(refuting determinism of the assembled LP), while `A_ub` and `b_ub` do agree.
-/
theorem lp_irl_C9_empty_objective :
    (assembleLP I0 (T_disc_inv I0) [0, 0]).1 ≠ (assembleLP I0 (T_disc_inv I0) [1, 1]).1
      ∧ (assembleLP I0 (T_disc_inv I0) [0, 0]).2 = (assembleLP I0 (T_disc_inv I0) [1, 1]).2 := by
  have h0 := assembleLP_eq I0 (T_disc_inv I0) [0, 0] rfl (by norm_num) (by norm_num)
  have h1 := assembleLP_eq I0 (T_disc_inv I0) [1, 1] rfl (by norm_num) (by norm_num)
  constructor
  · rw [h0, h1]
    intro hcon
    have := congrArg (fun l => l.getD 0 (0:ℚ)) hcon
    simp [List.getD_cons_zero] at this
  · rw [h0, h1]

/-- Witness for C5 at the concrete instance `I0`. -/
theorem lp_irl_C5_shape_witness :
    (lp_irl_LP I0 [0, 0]).2.1.length = ((2 - 1) * 2 + ((2 - 1) * 2 + (2 + 2 * 2)))
      ∧ (∀ r ∈ (lp_irl_LP I0 [0, 0]).2.1, r.length = 3 * 2)
      ∧ (lp_irl_LP I0 [0, 0]).2.2.length = (lp_irl_LP I0 [0, 0]).2.1.length
      ∧ (lp_irl_LP I0 [0, 0]).1.length = 3 * 2
      ∧ (lp_irl_LP I0 [0, 0]).1 = [0, 0] ++ List.replicate 2 (-1) ++ List.replicate 2 I0.l1 :=
  lp_irl_C5_shape I0 [0, 0] rfl (by norm_num) (by norm_num)

/-! ## Witnesses at the concrete instance -/

theorem I0_trans_nonneg : ∀ (s : Fin 2) (a : Fin 2) (s' : Fin 2), 0 ≤ trans I0 s a s' := by
  intro s a s'
  fin_cases s <;> fin_cases a <;> fin_cases s' <;> norm_num [trans, I0]

theorem I0_trans_rowsum : ∀ (s : Fin 2) (a : Fin 2), ∑ s', trans I0 s a s' = 1 := by
  intro s a
  fin_cases s <;> fin_cases a <;> norm_num [trans, I0, Fin.sum_univ_two]

theorem x0_take_ne :
    ∃ a ∈ ([2, 0, -100, -100, 100, 100] : List ℚ).take 2,
      ∃ b ∈ ([2, 0, -100, -100, 100, 100] : List ℚ).take 2, a ≠ b := by
  refine ⟨2, by norm_num [List.take], 0, by norm_num [List.take], by norm_num⟩

/-- Witness for C1: on `I0` with the feasible point
`x0 = [2, 0, -100, -100, 100, 100]`, the recovered reward makes taking the
policy action at state 0 at least as valuable as deviating to action 1. -/
theorem lp_irl_C1_roundtrip_witness :
    Qval I0 (rewardVec I0 [2, 0, -100, -100, 100, 100]) 0 1
      ≤ Qval I0 (rewardVec I0 [2, 0, -100, -100, 100, 100]) 0 (I0.pi 0) :=
  lp_irl_C1_roundtrip I0 [0, 0] [2, 0, -100, -100, 100, 100]
    I0_trans_nonneg I0_trans_rowsum
    (by norm_num [I0]) (by norm_num [I0]) (by norm_num [I0]) (by norm_num [I0])
    (by norm_num) (by norm_num) rfl rfl x0_feasible x0_take_ne 0 1

/-- Witness for C2 at the concrete instance `I0`. -/
theorem lp_irl_C2_optimal_policy_witness :
    (∀ cab : LPTriple, add_optimal_policy_constraints I0 (T_disc_inv I0) cab
        = (cab.1,
           cab.2.1 ++ ((List.finRange (2 - 1)).map
             (fun idx => matRows (-((Tpi I0 - Tnotpi I0 idx) * T_disc_inv I0)))).flatten,
           cab.2.2 ++ List.replicate ((2 - 1) * 2) 0))
      ∧ (stack1 I0 (T_disc_inv I0)).length = (2 - 1) * 2
      ∧ (∀ r ∈ stack1 I0 (T_disc_inv I0), r.length = 2)
      ∧ (∀ (idx : Fin (2 - 1)) (s : Fin 2),
          0 ≤ (((Tpi I0 - Tnotpi I0 idx) * T_disc_inv I0)
            *ᵥ xvec 2 [2, 0, -100, -100, 100, 100]) s) :=
  lp_irl_C2_optimal_policy I0 [0, 0] [2, 0, -100, -100, 100, 100]
    rfl (by norm_num) (by norm_num) rfl x0_feasible

/-- Witness for C3 at the concrete instance `I0`. -/
theorem lp_irl_C3_costly_single_step_witness :
    (add_costly_single_step_constraints I0 (T_disc_inv I0)
        (add_optimal_policy_constraints I0 (T_disc_inv I0) ([0, 0], [], []))
      = ([0, 0] ++ List.replicate 2 (-1),
         (stack1 I0 (T_disc_inv I0)).map (fun r => r ++ List.replicate 2 0)
           ++ ((List.finRange (2 - 1)).map (fun idx => (List.finRange 2).map
                (fun s => rowOf (-((Tpi I0 - Tnotpi I0 idx) * T_disc_inv I0)) s
                  ++ idRow 2 s))).flatten,
         List.replicate ((2 - 1) * 2) 0 ++ List.replicate ((2 - 1) * 2) 0))
      ∧ (∀ (idx : Fin (2 - 1)) (s : Fin 2),
          ([2, 0, -100, -100, 100, 100] : List ℚ).getD (2 + s.val) 0
            ≤ (((Tpi I0 - Tnotpi I0 idx) * T_disc_inv I0)
              *ᵥ xvec 2 [2, 0, -100, -100, 100, 100]) s) :=
  lp_irl_C3_costly_single_step I0 [0, 0] [2, 0, -100, -100, 100, 100]
    rfl (by norm_num) (by norm_num) rfl x0_feasible

/-- Witness for C4 at the concrete instance `I0`. -/
theorem lp_irl_C4_l1norm_witness :
    (lp_irl_LP I0 [0, 0]
      = ((add_rmax_constraints 2 I0.Rmax
            (add_costly_single_step_constraints I0 (T_disc_inv I0)
              (add_optimal_policy_constraints I0 (T_disc_inv I0) ([0, 0], [], [])))).1
           ++ List.replicate 2 I0.l1,
         (add_rmax_constraints 2 I0.Rmax
            (add_costly_single_step_constraints I0 (T_disc_inv I0)
              (add_optimal_policy_constraints I0 (T_disc_inv I0) ([0, 0], [], [])))).2.1.map
             (fun r => r ++ List.replicate 2 0)
           ++ l1Rows 2,
         (add_rmax_constraints 2 I0.Rmax
            (add_costly_single_step_constraints I0 (T_disc_inv I0)
              (add_optimal_policy_constraints I0 (T_disc_inv I0) ([0, 0], [], [])))).2.2
           ++ List.replicate (2 * 2) 0))
      ∧ (∀ i < 2, 0 ≤ ([2, 0, -100, -100, 100, 100] : List ℚ).getD i 0) :=
  lp_irl_C4_l1norm I0 [0, 0] [2, 0, -100, -100, 100, 100]
    rfl (by norm_num) (by norm_num) rfl x0_feasible

end LPIRL
